import Mathlib

/-!
Verification of the echoTTS streaming core against its design spec.

The definitions below are shallow embeddings of the repository's code:
* `PCM` — the 16-bit PCM to float decode loop and the chunk accumulator of
  `generateStreaming` (src/src/hooks/useStreamingTTS.ts, primary revision).
* `Sched` — the playback-scheduling cursor of the same loop.
* `Alibaba` — the WebSocket session handler of the `useAlibabaTTS` hook,
  including `sendInput`, the fallback timer, `createWavBlob`, and the
  close handler.
* `Codec` — `sendEvent`'s ordered JSON serialization with the Python-style
  space rewriting.
* `Bridge` — the server-side WebSocket proxy (`server.js`): pending-message
  buffering while the upstream is connecting, and the flush on open.
* `Proxy` — the `/api/tts/stream` HTTP proxy endpoint's request builder.
-/

namespace PCM

/-- One 16-bit little-endian PCM sample read from two bytes, as the signed
integer computed by `(buffer[i] | (buffer[i+1] << 8))` followed by the
`sample >= 32768 ? sample - 65536 : sample` adjustment. -/
def decodeSampleZ (lo hi : ℕ) : ℤ :=
  let sample : ℤ := (lo : ℤ) + 256 * (hi : ℤ)
  if 32768 ≤ sample then sample - 65536 else sample

/-- The normalized float produced per sample: `signedSample / 32768.0`.
The division is exact in IEEE float for these values, so we model it in `ℚ`. -/
def decodeSampleQ (lo hi : ℕ) : ℚ :=
  (decodeSampleZ lo hi : ℚ) / 32768

/-- The decode loop of `generateStreaming`: converts every complete 2-byte
pair (`Math.floor(buffer.length / 2)` samples) to a normalized float;
a trailing odd byte is left undecoded. -/
def decodePCM : List ℕ → List ℚ
  | lo :: hi :: rest => decodeSampleQ lo hi :: decodePCM rest
  | [_] => []
  | [] => []

theorem decodePCM_length (l : List ℕ) : (decodePCM l).length = l.length / 2 := by
  induction l using decodePCM.induct with
  | case1 lo hi rest ih =>
      simp [decodePCM, ih]
      omega
  | case2 a => simp [decodePCM]
  | case3 => simp [decodePCM]

/-- `bytesPerSample = 2` in the source. -/
def bytesPerSample : ℕ := 2

/-- `samplesPerChunk = 4800` ("0.1 sec at 48kHz") in the source. -/
def samplesPerChunk : ℕ := 4800

/-- `minChunkSize = samplesPerChunk * bytesPerSample` — the minimum number of
buffered bytes before the decode loop runs. -/
def minChunkSize : ℕ := samplesPerChunk * bytesPerSample

/-- State of the chunk accumulator: the pending byte buffer, the bytes
consumed by decode passes so far (for the conservation law), and the decoded
blocks handed to the playback scheduler. -/
structure AccState where
  buffer : List ℕ
  consumed : List ℕ
  blocks : List (List ℚ)
  deriving Repr, DecidableEq

def accInit : AccState := ⟨[], [], []⟩

/-- One decode pass over the buffer (the body of the inner `while` loop):
decode all currently available complete samples, append the block, and drop
exactly the consumed `samplesToProcess * bytesPerSample` bytes
(`buffer = buffer.slice(samplesToProcess * bytesPerSample)`). -/
def drainPass (st : AccState) : AccState :=
  let samplesToProcess := st.buffer.length / 2
  { buffer := st.buffer.drop (samplesToProcess * 2)
    consumed := st.consumed ++ st.buffer.take (samplesToProcess * 2)
    blocks := st.blocks ++ [decodePCM st.buffer] }

/-- `while (buffer.length >= minChunkSize)`: because a pass consumes every
complete sample it leaves at most 1 byte, so the loop body runs at most once
per feed; we model the guarded pass. -/
def drainReady (st : AccState) : AccState :=
  if minChunkSize ≤ st.buffer.length then drainPass st else st

/-- Receiving one network chunk: append the bytes to the buffer
(`newBuffer.set(buffer); newBuffer.set(value, buffer.length)`), then run the
decode loop. -/
def feed (st : AccState) (chunk : List ℕ) : AccState :=
  drainReady { st with buffer := st.buffer ++ chunk }

/-- The final-buffer handling after the stream ends:
`if (buffer.length >= bytesPerSample)` decode the remaining complete
samples. -/
def flushFinal (st : AccState) : AccState :=
  if bytesPerSample ≤ st.buffer.length then drainPass st else st

/-- Running the accumulator over a whole sequence of received chunks and then
flushing, exactly as `generateStreaming` does. -/
def runAccumulator (feeds : List (List ℕ)) : AccState :=
  flushFinal (feeds.foldl feed accInit)

theorem drainPass_conservation (st : AccState) :
    (drainPass st).consumed ++ (drainPass st).buffer = st.consumed ++ st.buffer := by
  simp [drainPass]

theorem drainPass_buffer (st : AccState) :
    (drainPass st).buffer.length = st.buffer.length % 2 := by
  simp [drainPass]
  omega

theorem feed_conservation (st : AccState) (chunk : List ℕ) :
    (feed st chunk).consumed ++ (feed st chunk).buffer =
      st.consumed ++ st.buffer ++ chunk := by
  unfold feed drainReady
  split
  · rw [drainPass_conservation]; simp
  · simp

theorem foldl_feed_conservation (feeds : List (List ℕ)) (st : PCM.AccState) :
    (feeds.foldl feed st).consumed ++ (feeds.foldl feed st).buffer =
      st.consumed ++ st.buffer ++ feeds.flatten := by
  induction feeds generalizing st with
  | nil => simp
  | cons f rest ih =>
      simp only [List.foldl_cons, List.flatten_cons]
      rw [ih, feed_conservation]
      simp

theorem flushFinal_conservation (st : AccState) :
    (flushFinal st).consumed ++ (flushFinal st).buffer = st.consumed ++ st.buffer := by
  unfold flushFinal
  split
  · exact drainPass_conservation st
  · rfl

theorem flushFinal_buffer_le_one (st : AccState) :
    (flushFinal st).buffer.length ≤ 1 := by
  unfold flushFinal
  split
  · rw [drainPass_buffer]; omega
  · simp only [bytesPerSample] at *; omega

theorem flushFinal_blocks (st : AccState) :
    (flushFinal st).blocks =
      st.blocks ++ (if 2 ≤ st.buffer.length then [decodePCM st.buffer] else []) := by
  unfold flushFinal bytesPerSample
  split
  · simp [drainPass, *]
  · simp_all

theorem decodeSampleZ_bounds {lo hi : ℕ} (h1 : lo < 256) (h2 : hi < 256) :
    -32768 ≤ decodeSampleZ lo hi ∧ decodeSampleZ lo hi < 32768 := by
  unfold decodeSampleZ
  simp only []
  split <;> omega

theorem decodeSampleQ_range {lo hi : ℕ} (h1 : lo < 256) (h2 : hi < 256) :
    -1 ≤ decodeSampleQ lo hi ∧ decodeSampleQ lo hi < 1 := by
  obtain ⟨hl, hu⟩ := decodeSampleZ_bounds h1 h2
  unfold decodeSampleQ
  constructor
  · rw [le_div_iff₀ (by norm_num : (0:ℚ) < 32768)]
    have : ((-32768 : ℤ) : ℚ) ≤ ((decodeSampleZ lo hi : ℤ) : ℚ) := by exact_mod_cast hl
    push_cast at this ⊢
    linarith
  · rw [div_lt_one (by norm_num : (0:ℚ) < 32768)]
    exact_mod_cast hu

theorem decodePCM_range {l : List ℕ} (hb : ∀ b ∈ l, b < 256) :
    ∀ q ∈ decodePCM l, -1 ≤ q ∧ q < 1 := by
  induction l using decodePCM.induct with
  | case1 lo hi rest ih =>
      intro q hq
      simp only [decodePCM, List.mem_cons] at hq
      rcases hq with rfl | hq
      · exact decodeSampleQ_range (hb lo (by simp)) (hb hi (by simp))
      · exact ih (fun b h => hb b (by simp [h])) q hq
  | case2 a => intro q hq; simp [decodePCM] at hq
  | case3 => intro q hq; simp [decodePCM] at hq

theorem feed_blocks_of_min (st : AccState) (chunk : List ℕ)
    (h : minChunkSize ≤ (st.buffer ++ chunk).length) :
    (feed st chunk).blocks = st.blocks ++ [decodePCM (st.buffer ++ chunk)] := by
  unfold feed drainReady
  rw [if_pos h]
  rfl

theorem feed_buffer_of_min (st : AccState) (chunk : List ℕ)
    (h : minChunkSize ≤ (st.buffer ++ chunk).length) :
    (feed st chunk).buffer =
      (st.buffer ++ chunk).drop ((st.buffer ++ chunk).length / 2 * 2) := by
  unfold feed drainReady
  rw [if_pos h]
  rfl

/-- C2 (amended): a drain pass on a buffer with at least `minChunkSize`
(9600) bytes appends one block decoding all `⌊length/2⌋` currently available
complete samples, each value in `[-1, 1)`, and removes exactly the consumed
`2 * ⌊length/2⌋` bytes from the front of the buffer.  (The claim's scenario
figure of 2400 samples for 9600 bytes is amended to 4800 = 9600 / 2.) -/
theorem claim_C2_drain_decodes_all_available (st : AccState)
    (h1 : minChunkSize ≤ st.buffer.length) (h2 : ∀ b ∈ st.buffer, b < 256) :
    (drainReady st).blocks = st.blocks ++ [decodePCM st.buffer] ∧
    (decodePCM st.buffer).length = st.buffer.length / 2 ∧
    (∀ q ∈ decodePCM st.buffer, -1 ≤ q ∧ q < 1) ∧
    (drainReady st).buffer = st.buffer.drop (2 * (st.buffer.length / 2)) ∧
    (drainReady st).consumed = st.consumed ++ st.buffer.take (2 * (st.buffer.length / 2)) := by
  unfold drainReady
  rw [if_pos h1]
  refine ⟨by simp [drainPass], decodePCM_length _, decodePCM_range h2, ?_, ?_⟩
  · simp [drainPass, Nat.mul_comm]
  · simp [drainPass, Nat.mul_comm]

/-- C2 (counterexample): feeding exactly 9600 bytes with the code's
`minChunkSize = 9600` produces one block of 4800 samples, not the 2400 the
claim states. -/
theorem claim_C2_counterexample :
    ¬ ((feed accInit (List.replicate 9600 0)).blocks.map List.length = [2400]) := by
  intro h
  have hmin : minChunkSize ≤ ((accInit.buffer ++ List.replicate 9600 (0 : ℕ))).length := by
    rw [show accInit.buffer = [] from rfl, List.nil_append, List.length_replicate]
    norm_num [minChunkSize, samplesPerChunk, bytesPerSample]
  rw [feed_blocks_of_min accInit _ hmin,
    show accInit.blocks = [] from rfl, show accInit.buffer = [] from rfl,
    List.nil_append, List.nil_append, List.map_cons, List.map_nil,
    decodePCM_length, List.length_replicate] at h
  rw [List.cons.injEq] at h
  omega

/-- Concrete accumulator state used by the C2 witness. -/
def c2st : AccState := ⟨List.replicate 9600 7, [], []⟩

/-- C2 (witness): the drain theorem applied to a concrete 9600-byte buffer. -/
theorem claim_C2_witness :
    (minChunkSize ≤ c2st.buffer.length ∧ ∀ b ∈ c2st.buffer, b < 256) ∧
    ((drainReady c2st).blocks = c2st.blocks ++ [decodePCM c2st.buffer] ∧
      (decodePCM c2st.buffer).length = c2st.buffer.length / 2 ∧
      (∀ q ∈ decodePCM c2st.buffer, -1 ≤ q ∧ q < 1) ∧
      (drainReady c2st).buffer = c2st.buffer.drop (2 * (c2st.buffer.length / 2)) ∧
      (drainReady c2st).consumed =
        c2st.consumed ++ c2st.buffer.take (2 * (c2st.buffer.length / 2))) := by
  have h1 : minChunkSize ≤ c2st.buffer.length := by
    rw [show c2st.buffer = List.replicate 9600 7 from rfl, List.length_replicate]
    norm_num [minChunkSize, samplesPerChunk, bytesPerSample]
  have h2 : ∀ b ∈ c2st.buffer, b < 256 := by
    intro b hb
    rw [show c2st.buffer = List.replicate 9600 7 from rfl] at hb
    have := List.eq_of_mem_replicate hb
    omega
  exact ⟨⟨h1, h2⟩, claim_C2_drain_decodes_all_available c2st h1 h2⟩

/-- C3: over any sequence of feeds followed by the final flush, the bytes
consumed by the decode passes plus the undecoded leftover reconstitute the
concatenated input exactly, the leftover is at most 1 byte, and the flush
decodes the remaining bytes whenever they contain at least one complete
sample, regardless of the minimum threshold. -/
theorem claim_C3_byte_conservation (feeds : List (List ℕ)) :
    (runAccumulator feeds).consumed ++ (runAccumulator feeds).buffer = feeds.flatten ∧
    (runAccumulator feeds).buffer.length ≤ 1 ∧
    (runAccumulator feeds).blocks =
      (feeds.foldl feed accInit).blocks ++
        (if 2 ≤ (feeds.foldl feed accInit).buffer.length
          then [decodePCM (feeds.foldl feed accInit).buffer] else []) := by
  unfold runAccumulator
  refine ⟨?_, flushFinal_buffer_le_one _, flushFinal_blocks _⟩
  rw [flushFinal_conservation, foldl_feed_conservation]
  simp [accInit]

end PCM

namespace Sched

/-- One scheduling step of the chunk loop in `generateStreaming`
(primary revision).  The cursor `startTime` starts at 0; on the first chunk
it is set to `audioContext.currentTime + 0.1`; the chunk is started at
`Math.max(startTime, audioContext.currentTime)`; afterwards
`startTime = scheduleTime + audioBuffer.duration`.  Returns the schedule
time and the new cursor. -/
def scheduleChunk (startTime clockNow duration : ℚ) : ℚ × ℚ :=
  let st1 := if startTime = 0 then clockNow + 1 / 10 else startTime
  let scheduleTime := max st1 clockNow
  (scheduleTime, scheduleTime + duration)

/-- Folding `scheduleChunk` over a sequence of calls; each call supplies the
clock value read at that moment and the block's duration; returns the list
of schedule times. -/
def runSchedAux (startTime : ℚ) : List (ℚ × ℚ) → List ℚ
  | [] => []
  | (clockNow, duration) :: rest =>
      let r := scheduleChunk startTime clockNow duration
      r.1 :: runSchedAux r.2 rest

def runSched (calls : List (ℚ × ℚ)) : List ℚ :=
  runSchedAux 0 calls

/-- Reference behavior for calls after the first, as the spec words it:
`startTime = max(nextStart, clockNow)`, then `nextStart = startTime +
duration`. -/
def specFrom (nextStart : ℚ) : List (ℚ × ℚ) → List ℚ
  | [] => []
  | (clockNow, duration) :: rest =>
      let s := max nextStart clockNow
      s :: specFrom (s + duration) rest

/-- Reference behavior of the whole call sequence as the spec words it: the
first call schedules at `clockNow + 0.1`, subsequent calls at
`max(nextStart, clockNow)`. -/
def specSched : List (ℚ × ℚ) → List ℚ
  | [] => []
  | (clockNow, duration) :: rest =>
      let s := clockNow + 1 / 10
      s :: specFrom (s + duration) rest

theorem runSchedAux_eq_specFrom (calls : List (ℚ × ℚ)) (startTime : ℚ)
    (hpos : 0 < startTime) (hc : ∀ p ∈ calls, 0 ≤ p.1 ∧ 0 ≤ p.2) :
    runSchedAux startTime calls = specFrom startTime calls := by
  induction calls generalizing startTime with
  | nil => rfl
  | cons p rest ih =>
      obtain ⟨c, d⟩ := p
      obtain ⟨hc0, hd0⟩ := hc (c, d) (by simp)
      simp only at hc0 hd0
      have hne : startTime ≠ 0 := ne_of_gt hpos
      simp only [runSchedAux, specFrom, scheduleChunk, if_neg hne]
      have hs : 0 < max startTime c + d := by
        have := le_max_left startTime c
        linarith
      rw [ih _ hs (fun q hq => hc q (by simp [hq]))]

theorem specFrom_ge_clock (calls : List (ℚ × ℚ)) (nextStart : ℚ) :
    List.Forall₂ (fun (p : ℚ × ℚ) s => p.1 ≤ s) calls (specFrom nextStart calls) := by
  induction calls generalizing nextStart with
  | nil => exact List.Forall₂.nil
  | cons p rest ih =>
      obtain ⟨c, d⟩ := p
      exact List.Forall₂.cons (le_max_right _ _) (ih _)

theorem specSched_ge_clock (calls : List (ℚ × ℚ)) :
    List.Forall₂ (fun (p : ℚ × ℚ) s => p.1 ≤ s) calls (specSched calls) := by
  cases calls with
  | nil => exact List.Forall₂.nil
  | cons p rest =>
      obtain ⟨c, d⟩ := p
      refine List.Forall₂.cons ?_ (specFrom_ge_clock _ _)
      simp only
      linarith

/-- C1: over any sequence of chunk-scheduling calls with non-negative clock
readings and durations, the loop schedules the first block at
`clockNow + 0.1` and every later block at `max(nextStart, clockNow)`
(equality with the spec's reference scheduler), and hence never schedules a
block before the clock value read at its call. -/
theorem claim_C1_no_scheduling_in_past (calls : List (ℚ × ℚ))
    (hc : ∀ p ∈ calls, 0 ≤ p.1 ∧ 0 ≤ p.2) :
    runSched calls = specSched calls ∧
    List.Forall₂ (fun (p : ℚ × ℚ) s => p.1 ≤ s) calls (runSched calls) := by
  have heq : runSched calls = specSched calls := by
    cases calls with
    | nil => rfl
    | cons p rest =>
        obtain ⟨c, d⟩ := p
        obtain ⟨hc0, hd0⟩ := hc (c, d) (by simp)
        simp only at hc0 hd0
        simp only [runSched, runSchedAux, specSched, scheduleChunk, if_pos rfl, if_true]
        have hmax : max (c + 1 / 10) c = c + 1 / 10 := by
          apply max_eq_left
          linarith
        rw [hmax]
        have hpos : 0 < c + 1 / 10 + d := by linarith
        rw [runSchedAux_eq_specFrom rest _ hpos (fun q hq => hc q (by simp [hq]))]
  exact ⟨heq, heq ▸ specSched_ge_clock calls⟩

/-- C1 (witness): the scheduler theorem at a concrete call sequence, with a
late clock (the second call's clock 5 overtakes the cursor). -/
theorem claim_C1_witness :
    (∀ p ∈ [((2 : ℚ), (1 : ℚ)), (5, 2), (6, 1)], 0 ≤ p.1 ∧ 0 ≤ p.2) ∧
    (runSched [((2 : ℚ), (1 : ℚ)), (5, 2), (6, 1)] =
        specSched [((2 : ℚ), (1 : ℚ)), (5, 2), (6, 1)] ∧
      List.Forall₂ (fun (p : ℚ × ℚ) s => p.1 ≤ s)
        [((2 : ℚ), (1 : ℚ)), (5, 2), (6, 1)]
        (runSched [((2 : ℚ), (1 : ℚ)), (5, 2), (6, 1)])) :=
  ⟨by decide, claim_C1_no_scheduling_in_past _ (by decide)⟩

end Sched
namespace Alibaba

/-- Outbound control messages sent by the `useAlibabaTTS` handler (tags of
the `sendEvent` payload types). -/
inductive SentMsg
  | sessionUpdate
  | inputAppend
  | inputCommit
  | sessionFinish
  deriving Repr, DecidableEq

/-- Settlement of the `generate` promise. -/
inductive Outcome
  | resolvedWav (bytes : List ℕ)
  | rejected (message : String)
  deriving Repr, DecidableEq

/-- Parsed upstream text messages, by their `type` field. -/
inductive Msg
  | created
  | updated
  | audioDelta (bytes : List ℕ)
  | responseDone
  | finished
  | errorMsg (message : String)
  deriving Repr, DecidableEq

/-- Events observed by one connection: an upstream message, the 500ms
fallback timer firing, or the socket closing.  Traces are arbitrary, which
over-approximates the schedules the runtime can produce. -/
inductive Event
  | msg (m : Msg)
  | timerFire
  | close
  deriving Repr, DecidableEq

/-- The per-connection mutable captures of `useAlibabaTTS.generate`:
`sessionCreated`, `inputSent`, `finishPending`, `updateWaitTimer` (as a
liveness flag), `audioChunks`, plus the outbound messages sent so far and
the promise settlement. -/
structure ConnState where
  sessionCreated : Bool
  inputSent : Bool
  finishPending : Bool
  timerActive : Bool
  audioChunks : List (List ℕ)
  sent : List SentMsg
  outcome : Option Outcome
  deriving Repr, DecidableEq

def connInit : ConnState := ⟨false, false, false, false, [], [], none⟩

/-- Promise semantics: only the first `resolve`/`reject` takes effect. -/
def settle (st : ConnState) (o : Outcome) : ConnState :=
  match st.outcome with
  | some _ => st
  | none => { st with outcome := some o }

/-- `sendInput`: `if (inputSent) return; inputSent = true;` then the
`input_text_buffer.append` and `input_text_buffer.commit` events, then
`finishPending = true`. -/
def sendInput (st : ConnState) : ConnState :=
  if st.inputSent then st
  else
    { st with
      inputSent := true
      sent := st.sent ++ [SentMsg.inputAppend, SentMsg.inputCommit]
      finishPending := true }

/-- `u16le` models `DataView.setUint16(·, ·, true)` (little-endian, mod 2^16). -/
def u16le (n : ℕ) : List ℕ := [n % 256, n / 256 % 256]

/-- `u32le` models `DataView.setUint32(·, ·, true)` (little-endian, mod 2^32). -/
def u32le (n : ℕ) : List ℕ :=
  [n % 256, n / 2 ^ 8 % 256, n / 2 ^ 16 % 256, n / 2 ^ 24 % 256]

/-- `writeString`: the ASCII codes of a tag such as `"RIFF"`. -/
def asciiCodes (s : String) : List ℕ := s.data.map Char.toNat

/-- `createWavBlob`: the WAV container assembled around the accumulated PCM
bytes.  The `DataView` writes cover offsets 0..43 contiguously, then the PCM
data is copied at offset 44, so the result is the concatenation below. -/
def createWavBytes (pcmData : List ℕ) (sampleRate : ℕ) : List ℕ :=
  let numChannels := 1
  let bitsPerSample := 16
  let bytesPerSample := bitsPerSample / 8
  let blockAlign := numChannels * bytesPerSample
  let byteRate := sampleRate * blockAlign
  let dataSize := pcmData.length
  let bufferSize := 44 + dataSize
  asciiCodes "RIFF" ++ u32le (bufferSize - 8) ++ asciiCodes "WAVE" ++
    asciiCodes "fmt " ++ u32le 16 ++ u16le 1 ++ u16le numChannels ++
    u32le sampleRate ++ u32le byteRate ++ u16le blockAlign ++
    u16le bitsPerSample ++ asciiCodes "data" ++ u32le dataSize ++ pcmData

/-- One event-handler dispatch of the connection, translated from the
`ws.onmessage` switch, the fallback-timer callback, and `ws.onclose`. -/
def step (st : ConnState) (e : Event) : ConnState :=
  match e with
  | Event.msg Msg.created =>
      { st with
        sessionCreated := true
        sent := st.sent ++ [SentMsg.sessionUpdate]
        timerActive := true }
  | Event.msg Msg.updated =>
      let st1 := { st with timerActive := false }
      if st1.inputSent then st1 else sendInput st1
  | Event.msg (Msg.audioDelta bytes) =>
      { st with audioChunks := st.audioChunks ++ [bytes] }
  | Event.msg Msg.responseDone =>
      if st.finishPending then
        { st with finishPending := false, sent := st.sent ++ [SentMsg.sessionFinish] }
      else st
  | Event.msg Msg.finished =>
      if st.audioChunks = [] then settle st (Outcome.rejected "No audio data received")
      else settle st (Outcome.resolvedWav (createWavBytes st.audioChunks.flatten 24000))
  | Event.msg (Msg.errorMsg m) => settle st (Outcome.rejected m)
  | Event.timerFire =>
      if st.inputSent then st else sendInput st
  | Event.close =>
      let st1 := { st with timerActive := false }
      if st1.sessionCreated = false ∧ st1.audioChunks = [] then
        settle st1 (Outcome.rejected "Connection closed without receiving audio")
      else st1

def run (events : List Event) : ConnState := events.foldl step connInit

/-- The at-most-once invariant maintained by every handler: the number of
input-append (and input-commit) messages sent equals 1 when `inputSent` is
set and 0 otherwise. -/
def sendInv (st : ConnState) : Prop :=
  st.sent.count SentMsg.inputAppend = (if st.inputSent then 1 else 0) ∧
  st.sent.count SentMsg.inputCommit = (if st.inputSent then 1 else 0)

theorem sendInv_step {st : ConnState} (h : sendInv st) (e : Event) :
    sendInv (step st e) := by
  obtain ⟨ha, hc⟩ := h
  cases e with
  | msg m =>
      cases m with
      | created =>
          constructor <;> simp [step, List.count_append, ha, hc]
      | updated =>
          by_cases hs : st.inputSent <;>
            simp [step, sendInput, sendInv, hs, List.count_append, ha, hc] at *
      | audioDelta bytes => exact ⟨ha, hc⟩
      | responseDone =>
          by_cases hf : st.finishPending <;>
            simp [step, sendInv, hf, List.count_append, ha, hc]
      | finished =>
          by_cases hz : st.audioChunks = [] <;>
            simp [step, settle, sendInv, hz, ha, hc] <;>
            cases st.outcome <;> simp [ha, hc]
      | errorMsg m =>
          cases ho : st.outcome <;> simp [step, settle, sendInv, ho, ha, hc]
  | timerFire =>
      by_cases hs : st.inputSent <;>
        simp [step, sendInput, sendInv, hs, List.count_append, ha, hc] at *
  | close =>
      by_cases hz : st.sessionCreated = false ∧ st.audioChunks = [] <;>
        simp [step, settle, sendInv, hz, ha, hc] <;>
        cases st.outcome <;> simp [ha, hc]

theorem sendInv_run (events : List Event) : sendInv (run events) := by
  have : ∀ st, sendInv st → sendInv (events.foldl step st) := by
    induction events with
    | nil => intro st h; exact h
    | cons e rest ih =>
        intro st h
        exact ih _ (sendInv_step h e)
  exact this connInit ⟨rfl, rfl⟩

/-- C4: over every event trace of one connection — in particular any order
or combination of fallback-timer firings and `session.updated` messages —
the `input_text_buffer.append` / `input_text_buffer.commit` pair is sent at
most once, guarded by the `inputSent` flag. -/
theorem claim_C4_input_sent_at_most_once (events : List Event) :
    (run events).sent.count SentMsg.inputAppend ≤ 1 ∧
    (run events).sent.count SentMsg.inputCommit ≤ 1 := by
  obtain ⟨ha, hc⟩ := sendInv_run events
  constructor
  · rw [ha]; split <;> omega
  · rw [hc]; split <;> omega

end Alibaba
namespace Alibaba

/-- C9 (counterexample): a connection that received `session.created` and
then closed — before FINISHED, with zero accumulated audio bytes — is NOT
rejected with the distinct closed-without-audio error (the promise is left
unsettled), because `ws.onclose` only rejects when `sessionCreated` is still
false. -/
theorem claim_C9_counterexample :
    (run [Event.msg Msg.created, Event.close]).audioChunks = [] ∧
    (run [Event.msg Msg.created, Event.close]).outcome = none ∧
    (run [Event.msg Msg.created, Event.close]).outcome ≠
      some (Outcome.rejected "Connection closed without receiving audio") := by
  refine ⟨rfl, rfl, ?_⟩
  rw [show (run [Event.msg Msg.created, Event.close]).outcome = none from rfl]
  simp

/-- C9 (amended): a connection that closes with zero accumulated audio
chunks while `session.created` was never received (and whose promise is
still pending) is rejected with the distinct error
`Connection closed without receiving audio`. -/
theorem claim_C9_closed_without_audio (st : ConnState)
    (h1 : st.sessionCreated = false) (h2 : st.audioChunks = [])
    (h3 : st.outcome = none) :
    (step st Event.close).outcome =
      some (Outcome.rejected "Connection closed without receiving audio") := by
  simp [step, settle, h1, h2, h3]

/-- C9 (witness): the close handler at the pristine initial state. -/
theorem claim_C9_witness :
    (connInit.sessionCreated = false ∧ connInit.audioChunks = [] ∧
      connInit.outcome = none) ∧
    (step connInit Event.close).outcome =
      some (Outcome.rejected "Connection closed without receiving audio") :=
  ⟨⟨rfl, rfl, rfl⟩, claim_C9_closed_without_audio connInit rfl rfl rfl⟩

/-- Modelled from the spec: the canonical 44-byte WAV container layout —
RIFF chunk with size `36 + N`, WAVE tag, fmt chunk of size 16 with PCM
format code 1, 1 channel, the given sample rate, byte rate `2 * rate`,
block align 2, 16 bits per sample, then a data chunk of size `N` followed by
the PCM bytes. -/
def canonicalWav (pcm : List ℕ) (sampleRate : ℕ) : List ℕ :=
  asciiCodes "RIFF" ++ u32le (36 + pcm.length) ++ asciiCodes "WAVE" ++
    asciiCodes "fmt " ++ u32le 16 ++ u16le 1 ++ u16le 1 ++
    u32le sampleRate ++ u32le (sampleRate * 2) ++ u16le 2 ++ u16le 16 ++
    asciiCodes "data" ++ u32le pcm.length ++ pcm

/-- Little-endian 32-bit read at a byte offset. -/
def readU32le (l : List ℕ) (off : ℕ) : ℕ :=
  l.getD off 0 + 256 * l.getD (off + 1) 0 + 65536 * l.getD (off + 2) 0 +
    16777216 * l.getD (off + 3) 0

theorem createWavBytes_eq_canonical (pcm : List ℕ) (rate : ℕ) :
    createWavBytes pcm rate = canonicalWav pcm rate := by
  have h : 44 + pcm.length - 8 = 36 + pcm.length := by omega
  simp [createWavBytes, canonicalWav, h]

theorem createWavBytes_length (pcm : List ℕ) (rate : ℕ) :
    (createWavBytes pcm rate).length = 44 + pcm.length := by
  rw [createWavBytes_eq_canonical]
  simp [canonicalWav, asciiCodes, u32le, u16le]
  omega

/-- C7: `createWavBlob` produces exactly `44 + N` bytes laid out as the
canonical RIFF/WAVE PCM header followed by the PCM data; for 100 PCM bytes
at 24000Hz the file is 144 bytes and the little-endian uint32 at offset 4
is 136. -/
theorem claim_C7_wav_layout :
    (∀ (pcm : List ℕ) (rate : ℕ),
        createWavBytes pcm rate = canonicalWav pcm rate ∧
        (createWavBytes pcm rate).length = 44 + pcm.length) ∧
    (createWavBytes (List.replicate 100 0) 24000).length = 144 ∧
    readU32le (createWavBytes (List.replicate 100 0) 24000) 4 = 136 := by
  refine ⟨fun pcm rate => ⟨createWavBytes_eq_canonical pcm rate,
    createWavBytes_length pcm rate⟩, ?_, ?_⟩
  · rw [createWavBytes_length, List.length_replicate]
  · rfl

end Alibaba
namespace PCM

/-- Modelled from the spec: the canonical inverse of the decode conversion —
scale the normalized float by 32768, round, wrap to the unsigned 16-bit
representation, and split into a little-endian byte pair.  (The repository
only decodes; the spec's round-trip law defines `encode` as this inverse.) -/
def encodeSampleBytes (q : ℚ) : List ℕ :=
  let u := (round (q * 32768) % 65536).toNat
  [u % 256, u / 256]

/-- Byte-wise re-encoding of a decoded sample sequence. -/
def encodeBytes (qs : List ℚ) : List ℕ :=
  (qs.map encodeSampleBytes).flatten

theorem encode_decode_sample {lo hi : ℕ} (h1 : lo < 256) (h2 : hi < 256) :
    encodeSampleBytes (decodeSampleQ lo hi) = [lo, hi] := by
  have hround : round (decodeSampleQ lo hi * 32768) = decodeSampleZ lo hi := by
    unfold decodeSampleQ
    rw [div_mul_cancel₀ _ (by norm_num : (32768 : ℚ) ≠ 0)]
    exact round_intCast _
  unfold encodeSampleBytes
  rw [hround]
  have hmod : (decodeSampleZ lo hi % 65536).toNat = lo + 256 * hi := by
    unfold decodeSampleZ
    simp only []
    split <;> omega
  rw [hmod]
  show [(lo + 256 * hi) % 256, (lo + 256 * hi) / 256] = [lo, hi]
  have hl : (lo + 256 * hi) % 256 = lo := by omega
  have hh : (lo + 256 * hi) / 256 = hi := by omega
  rw [hl, hh]

/-- C8: decoding an even-length byte buffer with the accumulator's 16-bit
PCM to float conversion and re-encoding each float as a little-endian signed
16-bit pair reproduces the buffer exactly — in particular within the claim's
1 least-significant-bit tolerance. -/
theorem claim_C8_roundtrip (B : List ℕ) (hb : ∀ b ∈ B, b < 256)
    (heven : B.length % 2 = 0) :
    encodeBytes (decodePCM B) = B := by
  induction B using decodePCM.induct with
  | case1 lo hi rest ih =>
      simp only [decodePCM, encodeBytes, List.map_cons, List.flatten_cons]
      rw [encode_decode_sample (hb lo (by simp)) (hb hi (by simp))]
      have heven2 : rest.length % 2 = 0 := by
        simp only [List.length_cons] at heven
        omega
      have := ih (fun b h => hb b (by simp [h])) heven2
      unfold encodeBytes at this
      rw [this]
      rfl
  | case2 a => simp at heven
  | case3 => rfl

/-- C8 (witness): the round-trip theorem at a concrete four-byte buffer
(the samples 0x1234 and 0x8FFF, one positive and one negative). -/
theorem claim_C8_witness :
    ((∀ b ∈ [52, 18, 255, 143], b < 256) ∧ [52, 18, 255, 143].length % 2 = 0) ∧
    encodeBytes (decodePCM [52, 18, 255, 143]) = [52, 18, 255, 143] :=
  ⟨⟨by decide, by decide⟩, claim_C8_roundtrip [52, 18, 255, 143] (by decide) (by decide)⟩

end PCM
namespace Bridge

/-- WebSocket frame kinds. -/
inductive FrameKind
  | text
  | binary
  deriving Repr, DecidableEq

/-- Values as the `ws` library hands them to handlers and accepts them in
`send`: a JavaScript string or a `Buffer` (both carrying the same byte
content).  `ws` transmits a string as a text frame and a `Buffer` as a
binary frame, and delivers incoming client messages to the `message`
handler as `Buffer`s. -/
inductive WsData
  | strData (content : String)
  | bufData (content : String)
  deriving Repr, DecidableEq

/-- `data.toString('utf8')`. -/
def WsData.asString : WsData → String
  | strData c => c
  | bufData c => c

/-- The frame kind `send` uses for a value. -/
def WsData.sendKind : WsData → FrameKind
  | strData _ => FrameKind.text
  | bufData _ => FrameKind.binary

/-- `alibabaWs.readyState` as inspected by the client-message handler. -/
inductive UpstreamReady
  | connecting
  | opened
  | closedOrFailed
  deriving Repr, DecidableEq

/-- State of one proxied connection in `wss.on('connection')`:
the upstream ready state, the `messageBuffer` array, the frames actually
sent to the upstream so far (kind and content), and whether the client
socket was closed by the handler. -/
structure BridgeState where
  upstream : UpstreamReady
  messageBuffer : List WsData
  upstreamSent : List (FrameKind × String)
  clientClosedByBridge : Bool
  deriving Repr, DecidableEq

def bridgeInit : BridgeState :=
  { upstream := UpstreamReady.connecting
    messageBuffer := []
    upstreamSent := []
    clientClosedByBridge := false }

/-- Events relevant to the pending-queue behavior: a client message
(with whether `JSON.parse(data.toString())` succeeds — on failure the
handler aborts in its catch block), and the upstream `open` event. -/
inductive BEvent
  | clientMessage (data : WsData) (parses : Bool)
  | upstreamOpen
  deriving Repr, DecidableEq

/-- Translation of `clientWs.on('message')` and `alibabaWs.on('open')`:
while OPEN a client message is forwarded as `send(data.toString('utf8'))`
(always a text frame); while CONNECTING the raw `data` is pushed onto
`messageBuffer`; otherwise the bridge errors out and closes the client.
On upstream open, every buffered value is passed to `send` unchanged —
a `Buffer` therefore goes out as a binary frame — and the buffer is
cleared (`messageBuffer.length = 0`). -/
def bstep (st : BridgeState) (e : BEvent) : BridgeState :=
  match e with
  | BEvent.clientMessage data parses =>
      if parses = false then st
      else
        match st.upstream with
        | UpstreamReady.opened =>
            { st with
              upstreamSent := st.upstreamSent ++ [(FrameKind.text, data.asString)] }
        | UpstreamReady.connecting =>
            { st with messageBuffer := st.messageBuffer ++ [data] }
        | UpstreamReady.closedOrFailed =>
            { st with clientClosedByBridge := true }
  | BEvent.upstreamOpen =>
      { st with
        upstream := UpstreamReady.opened
        upstreamSent :=
          st.upstreamSent ++ st.messageBuffer.map (fun d => (d.sendKind, d.asString))
        messageBuffer := [] }

def runBridge (events : List BEvent) : BridgeState :=
  events.foldl bstep bridgeInit

/-- C5 (code evaluated at the failing input): two client JSON messages
arrive while the upstream is CONNECTING and the upstream then opens.  They
are queued and flushed in FIFO arrival order and the queue is cleared, but
both flushed frames are BINARY (`send` of the raw `Buffer`), whereas the
same message forwarded on the direct OPEN path goes out as a TEXT frame —
the flush does not preserve the message's original (text) frame kind. -/
theorem claim_C5_flush_sends_binary :
    (runBridge [BEvent.clientMessage (WsData.bufData "m1") true,
        BEvent.clientMessage (WsData.bufData "m2") true,
        BEvent.upstreamOpen]).upstreamSent =
      [(FrameKind.binary, "m1"), (FrameKind.binary, "m2")] ∧
    (runBridge [BEvent.clientMessage (WsData.bufData "m1") true,
        BEvent.clientMessage (WsData.bufData "m2") true,
        BEvent.upstreamOpen]).messageBuffer = [] ∧
    (bstep { bridgeInit with upstream := UpstreamReady.opened }
        (BEvent.clientMessage (WsData.bufData "m1") true)).upstreamSent =
      [(FrameKind.text, "m1")] ∧
    FrameKind.binary ≠ FrameKind.text := by
  refine ⟨rfl, rfl, rfl, ?_⟩
  intro h
  exact FrameKind.noConfusion h

end Bridge

namespace Proxy

/-- The fields `server.js` destructures from the `/api/tts/stream` request
body: `{ service, text, voice, stream, input, model }`.  Absent JSON fields
are `none`; `stream` carries the boolean the client may send. -/
structure StreamBody where
  service : String
  text : Option String
  input : Option String
  voice : String
  stream : Option Bool
  model : Option String

/-- `s.endsWith(suffix)` on JavaScript strings. -/
def strEndsWith (s suffix : String) : Bool :=
  suffix.data.isSuffixOf s.data

/-- Dropping the last `n` characters. -/
def strDropRight (s : String) (n : ℕ) : String :=
  ⟨s.data.take (s.data.length - n)⟩

/-- `targetEndpoint.replace(/\/v1\/audio\/speech\/?$/, '')`: the regex is
anchored at the end and greedily takes the optional trailing slash, so it
removes a terminal `/v1/audio/speech/` or `/v1/audio/speech` and otherwise
leaves the string unchanged. -/
def stripSpeechSuffix (e : String) : String :=
  if strEndsWith e "/v1/audio/speech/" then strDropRight e 17
  else if strEndsWith e "/v1/audio/speech" then strDropRight e 16
  else e

/-- The upstream fetch the proxy issues: target URL plus the payload fields
the claim is about. -/
structure UpstreamReq where
  url : String
  responseFormat : String
  streamField : Bool
  bodyText : Option String
  bodyModel : Option String
  deriving DecidableEq

/-- Translation of the endpoint handler's forwarding logic:
`resolvedText = input || text`, `shouldStream = stream !== undefined ?
stream : true`, `baseUrl` strips the speech suffix, and the payload/URL pair
depends on `shouldStream` exactly as in the two object literals. -/
def buildStreamRequest (targetEndpoint : String) (b : StreamBody) : UpstreamReq :=
  let resolvedText := match b.input with
    | some t => some t
    | none => b.text
  let shouldStream := b.stream.getD true
  let baseUrl := stripSpeechSuffix targetEndpoint
  let streamEndpoint := baseUrl ++ "/api/tts/stream"
  if shouldStream then
    { url := streamEndpoint
      responseFormat := "pcm"
      streamField := true
      bodyText := resolvedText
      bodyModel := none }
  else
    { url := targetEndpoint
      responseFormat := "mp3"
      streamField := false
      bodyText := resolvedText
      bodyModel := some (b.model.getD "tts-1") }

theorem stripSpeechSuffix_strips (base : List Char) :
    stripSpeechSuffix ⟨base ++ "/v1/audio/speech".data⟩ = ⟨base⟩ := by
  unfold stripSpeechSuffix strEndsWith strDropRight
  have hne : strEndsWith ⟨base ++ "/v1/audio/speech".data⟩ "/v1/audio/speech/" = false := by
    unfold strEndsWith
    rw [Bool.eq_false_iff]
    intro h
    rw [List.isSuffixOf_iff_suffix] at h
    obtain ⟨t, ht⟩ := h
    have hlast : (t ++ "/v1/audio/speech/".data).getLast? =
        ("/v1/audio/speech/".data).getLast? :=
      List.getLast?_append_of_ne_nil t (by decide)
    rw [ht] at hlast
    rw [show (String.mk (base ++ "/v1/audio/speech".data)).data =
        base ++ "/v1/audio/speech".data from rfl] at hlast
    rw [List.getLast?_append_of_ne_nil base (by decide)] at hlast
    revert hlast
    decide
  unfold strEndsWith at hne
  rw [show (String.mk (base ++ "/v1/audio/speech".data)).data =
    base ++ "/v1/audio/speech".data from rfl] at hne ⊢
  rw [hne]
  have hyes : ("/v1/audio/speech".data).isSuffixOf (base ++ "/v1/audio/speech".data) = true := by
    rw [List.isSuffixOf_iff_suffix]
    exact List.suffix_append base _
  rw [hyes]
  simp only [if_true, if_false, Bool.false_eq_true]
  have hlen : (base ++ "/v1/audio/speech".data).length - 16 = base.length := by
    rw [List.length_append]
    norm_num
  rw [hlen]
  rw [List.take_left base _]

/-- C10: with the `stream` field omitted the proxy behaves exactly as with
`stream: true` — it forwards to `<stripped endpoint>/api/tts/stream` with
`response_format: 'pcm'` and `stream: true`, stripping a trailing
`/v1/audio/speech` from the configured endpoint — and only an explicit
`stream: false` produces the non-streaming `response_format: 'mp3'` request
to the original endpoint. -/
theorem claim_C10_stream_default :
    (∀ (e : String) (b : StreamBody),
        buildStreamRequest e { b with stream := none } =
          buildStreamRequest e { b with stream := some true }) ∧
    (∀ (e : String) (b : StreamBody),
        (buildStreamRequest e { b with stream := none }).url =
          stripSpeechSuffix e ++ "/api/tts/stream" ∧
        (buildStreamRequest e { b with stream := none }).responseFormat = "pcm" ∧
        (buildStreamRequest e { b with stream := none }).streamField = true) ∧
    (∀ (base : List Char) (b : StreamBody),
        (buildStreamRequest ⟨base ++ "/v1/audio/speech".data⟩
            { b with stream := none }).url = String.mk base ++ "/api/tts/stream") ∧
    (∀ (e : String) (b : StreamBody),
        (buildStreamRequest e { b with stream := some false }).url = e ∧
        (buildStreamRequest e { b with stream := some false }).responseFormat = "mp3") ∧
    (∀ (e : String) (b : StreamBody),
        (buildStreamRequest e b).responseFormat = "mp3" ↔ b.stream = some false) := by
  refine ⟨fun e b => rfl, fun e b => ⟨rfl, rfl, rfl⟩, ?_, fun e b => ⟨rfl, rfl⟩, ?_⟩
  · intro base b
    show (buildStreamRequest ⟨base ++ "/v1/audio/speech".data⟩ { b with stream := none }).url = _
    unfold buildStreamRequest
    simp only [Option.getD_none, Option.getD_some, if_true]
    rw [stripSpeechSuffix_strips base]
  · intro e b
    unfold buildStreamRequest
    cases hst : b.stream with
    | none => simp [hst]
    | some v =>
        cases v with
        | true => simp
        | false => simp

end Proxy
namespace Codec

def obrace : Char := Char.ofNat 123

def cbrace : Char := Char.ofNat 125

def lbrack : Char := Char.ofNat 91

/-- Atomic JSON values appearing in `sendEvent` payloads: strings, and
numbers carried as their rendered digit string (`JSON.stringify` renders
`24000` as `24000`). -/
inductive JAtom
  | jstr (s : String)
  | jraw (digits : String)
  deriving Repr, DecidableEq

/-- Values of a `sendEvent` payload field: an atom or a one-level nested
object of atoms (the shape of every payload the hook builds, e.g.
`session: { voice, mode, response_format, sample_rate }`). -/
inductive JVal
  | atom (a : JAtom)
  | jobj (fields : List (String × JAtom))
  deriving Repr, DecidableEq

def quoteChars (s : String) : List Char := '"' :: (s.data ++ ['"'])

def atomChars : JAtom → List Char
  | JAtom.jstr s => quoteChars s
  | JAtom.jraw d => d.data

/-- `JSON.stringify` object serialization (no spaces), field part. -/
def jsFieldA (f : String × JAtom) : List Char :=
  quoteChars f.1 ++ ':' :: atomChars f.2

def jsFieldsA : List (String × JAtom) → List Char
  | [] => []
  | [f] => jsFieldA f
  | f :: rest => jsFieldA f ++ ',' :: jsFieldsA rest

def jsValChars : JVal → List Char
  | JVal.atom a => atomChars a
  | JVal.jobj fs => obrace :: (jsFieldsA fs ++ [cbrace])

def jsField (f : String × JVal) : List Char :=
  quoteChars f.1 ++ ':' :: jsValChars f.2

def jsFields : List (String × JVal) → List Char
  | [] => []
  | [f] => jsField f
  | f :: rest => jsField f ++ ',' :: jsFields rest

/-- `JSON.stringify(fullPayload)`: keys in insertion order, no spaces. -/
def jsStringify (fields : List (String × JVal)) : List Char :=
  obrace :: (jsFields fields ++ [cbrace])

/-- Intermediate style after the comma pass: `", "` separators, tight
colons. -/
def m1FieldsA : List (String × JAtom) → List Char
  | [] => []
  | [f] => jsFieldA f
  | f :: rest => jsFieldA f ++ ',' :: ' ' :: m1FieldsA rest

def m1ValChars : JVal → List Char
  | JVal.atom a => atomChars a
  | JVal.jobj fs => obrace :: (m1FieldsA fs ++ [cbrace])

def m1Field (f : String × JVal) : List Char :=
  quoteChars f.1 ++ ':' :: m1ValChars f.2

def m1Fields : List (String × JVal) → List Char
  | [] => []
  | [f] => m1Field f
  | f :: rest => m1Field f ++ ',' :: ' ' :: m1Fields rest

def m1Stringify (fields : List (String × JVal)) : List Char :=
  obrace :: (m1Fields fields ++ [cbrace])

/-- Python `json.dumps` style: `", "` separators and `": "` after keys, keys
in declared order — the byte format the upstream's order-sensitive parser
expects.  This is the reference serializer the claim compares against. -/
def pyFieldA (f : String × JAtom) : List Char :=
  quoteChars f.1 ++ ':' :: ' ' :: atomChars f.2

def pyFieldsA : List (String × JAtom) → List Char
  | [] => []
  | [f] => pyFieldA f
  | f :: rest => pyFieldA f ++ ',' :: ' ' :: pyFieldsA rest

def pyValChars : JVal → List Char
  | JVal.atom a => atomChars a
  | JVal.jobj fs => obrace :: (pyFieldsA fs ++ [cbrace])

def pyField (f : String × JVal) : List Char :=
  quoteChars f.1 ++ ':' :: ' ' :: pyValChars f.2

def pyFields : List (String × JVal) → List Char
  | [] => []
  | [f] => pyField f
  | f :: rest => pyField f ++ ',' :: ' ' :: pyFields rest

def pyStringify (fields : List (String × JVal)) : List Char :=
  obrace :: (pyFields fields ++ [cbrace])

/-- One global two-character regex replace `s.replace(/cd/g, rep)`: scan
left to right; every non-overlapping adjacent occurrence of `c` then `d` is
replaced by `rep`, and scanning resumes after the match. -/
def replacePair (c d : Char) (rep : List Char) : List Char → List Char
  | a :: b :: rest =>
      if a = c ∧ b = d then rep ++ replacePair c d rep rest
      else a :: replacePair c d rep (b :: rest)
  | l => l

/-- The four sequential `.replace` passes of `sendEvent`, in source order:
`,"` → `, "`, then `":` → `": `, then `,{` → `, {`, then `,[` → `, [`. -/
def pythonize (s : List Char) : List Char :=
  replacePair ',' lbrack [',', ' ', lbrack]
    (replacePair ',' obrace [',', ' ', obrace]
      (replacePair '"' ':' ['"', ':', ' ']
        (replacePair ',' '"' [',', ' ', '"'] s)))

/-- `sendEvent`: serialize `{ event_id: eventId, ...payload }` with
`JSON.stringify` and apply the spacing rewrites. -/
def sendEventChars (eventId : String) (payload : List (String × JVal)) : List Char :=
  pythonize (jsStringify (("event_id", JVal.atom (JAtom.jstr eventId)) :: payload))

/-- Characters that need no JSON escaping and cannot interact with the
regex passes: printable, not a quote, backslash, comma, colon, brace or
bracket. -/
def cleanCharB (ch : Char) : Bool :=
  32 ≤ ch.toNat && ch ≠ '"' && ch ≠ '\\' && ch ≠ ',' && ch ≠ ':' &&
    ch ≠ obrace && ch ≠ lbrack

def cleanStrB (s : String) : Bool := s.data.all cleanCharB

def cleanAtomB : JAtom → Bool
  | JAtom.jstr s => cleanStrB s
  | JAtom.jraw d => cleanStrB d

def cleanFieldsAB (fs : List (String × JAtom)) : Bool :=
  fs.all fun f => cleanStrB f.1 && cleanAtomB f.2

def cleanValB : JVal → Bool
  | JVal.atom a => cleanAtomB a
  | JVal.jobj fs => cleanFieldsAB fs

def cleanFieldsB (fs : List (String × JVal)) : Bool :=
  fs.all fun f => cleanStrB f.1 && cleanValB f.2

end Codec
namespace Codec

theorem replacePair_nil (c d : Char) (rep : List Char) : replacePair c d rep [] = [] := rfl

theorem replacePair_single (c d : Char) (rep : List Char) (a : Char) :
    replacePair c d rep [a] = [a] := rfl

theorem replacePair_cons₂ (c d : Char) (rep : List Char) (a b : Char) (t : List Char) :
    replacePair c d rep (a :: b :: t) =
      if a = c ∧ b = d then rep ++ replacePair c d rep t
      else a :: replacePair c d rep (b :: t) := by
  rw [replacePair]

theorem replacePair_cons_of_ne {c d : Char} {rep : List Char} {a : Char}
    {ys : List Char} (h : a ≠ c ∨ ys.head? ≠ some d) :
    replacePair c d rep (a :: ys) = a :: replacePair c d rep ys := by
  cases ys with
  | nil => rfl
  | cons y t =>
      rw [replacePair_cons₂, if_neg]
      rintro ⟨rfl, rfl⟩
      rcases h with h | h
      · exact h rfl
      · exact h rfl

theorem replacePair_match (c d : Char) (rep : List Char) (t : List Char) :
    replacePair c d rep (c :: d :: t) = rep ++ replacePair c d rep t := by
  rw [replacePair_cons₂, if_pos ⟨rfl, rfl⟩]

theorem replacePair_cons_match {c d : Char} {ys : List Char} (hcd : c ≠ d)
    (h : ys.head? = some d) :
    replacePair c d [c, ' ', d] (c :: ys) = c :: ' ' :: replacePair c d [c, ' ', d] ys := by
  cases ys with
  | nil => simp at h
  | cons y t =>
      have hy : y = d := by simpa using h
      subst hy
      rw [replacePair_match]
      rw [replacePair_cons_of_ne (Or.inl (Ne.symm hcd))]
      rfl

theorem replacePair_append_of_ne {c d : Char} {rep : List Char} {xs : List Char}
    (ys : List Char) (h : ∀ x ∈ xs, x ≠ c) :
    replacePair c d rep (xs ++ ys) = xs ++ replacePair c d rep ys := by
  induction xs with
  | nil => rfl
  | cons a t ih =>
      rw [List.cons_append,
        replacePair_cons_of_ne (Or.inl (h a (by simp))),
        ih (fun x hx => h x (by simp [hx])), List.cons_append]

end Codec
namespace Codec

theorem cleanCharB_spec {ch : Char} (h : cleanCharB ch = true) :
    ch ≠ '"' ∧ ch ≠ ',' ∧ ch ≠ ':' ∧ ch ≠ obrace ∧ ch ≠ lbrack := by
  simp only [cleanCharB, Bool.and_eq_true, decide_eq_true_eq] at h
  tauto

theorem cleanStrB_mem {s : String} (hs : cleanStrB s = true) {x : Char}
    (hx : x ∈ s.data) : cleanCharB x = true := by
  simp only [cleanStrB, List.all_eq_true] at hs
  exact hs x hx

theorem cleanFieldsAB_cons {f : String × JAtom} {fs : List (String × JAtom)}
    (h : cleanFieldsAB (f :: fs) = true) :
    cleanStrB f.1 = true ∧ cleanAtomB f.2 = true ∧ cleanFieldsAB fs = true := by
  simp only [cleanFieldsAB, List.all_cons, Bool.and_eq_true] at h
  exact ⟨h.1.1, h.1.2, h.2⟩

theorem cleanFieldsB_cons {f : String × JVal} {fs : List (String × JVal)}
    (h : cleanFieldsB (f :: fs) = true) :
    cleanStrB f.1 = true ∧ cleanValB f.2 = true ∧ cleanFieldsB fs = true := by
  simp only [cleanFieldsB, List.all_cons, Bool.and_eq_true] at h
  exact ⟨h.1.1, h.1.2, h.2⟩

theorem jsFieldsA_cons_head (g : String × JAtom) (t : List (String × JAtom)) :
    ∃ l, jsFieldsA (g :: t) = '"' :: l := by
  cases t with
  | nil =>
      exact ⟨(g.1.data ++ ['"']) ++ ':' :: atomChars g.2,
        by simp [jsFieldsA, jsFieldA, quoteChars]⟩
  | cons h2 t2 =>
      exact ⟨(g.1.data ++ ['"']) ++ ':' :: atomChars g.2 ++ ',' :: jsFieldsA (h2 :: t2),
        by simp [jsFieldsA, jsFieldA, quoteChars]⟩

theorem jsFields_cons_head (g : String × JVal) (t : List (String × JVal)) :
    ∃ l, jsFields (g :: t) = '"' :: l := by
  cases t with
  | nil =>
      exact ⟨(g.1.data ++ ['"']) ++ ':' :: jsValChars g.2,
        by simp [jsFields, jsField, quoteChars]⟩
  | cons h2 t2 =>
      exact ⟨(g.1.data ++ ['"']) ++ ':' :: jsValChars g.2 ++ ',' :: jsFields (h2 :: t2),
        by simp [jsFields, jsField, quoteChars]⟩

theorem pass1_quote {s : String} (hs : cleanStrB s = true) (ys : List Char) :
    replacePair ',' '"' [',', ' ', '"'] (quoteChars s ++ ys) =
      quoteChars s ++ replacePair ',' '"' [',', ' ', '"'] ys := by
  apply replacePair_append_of_ne
  intro x hx
  simp only [quoteChars, List.mem_cons, List.mem_append, List.not_mem_nil,
    or_false] at hx
  rcases hx with rfl | hx | rfl
  · decide
  · exact (cleanCharB_spec (cleanStrB_mem hs hx)).2.1
  · decide

theorem pass1_atom {a : JAtom} (ha : cleanAtomB a = true) (ys : List Char) :
    replacePair ',' '"' [',', ' ', '"'] (atomChars a ++ ys) =
      atomChars a ++ replacePair ',' '"' [',', ' ', '"'] ys := by
  cases a with
  | jstr s => exact pass1_quote ha ys
  | jraw d =>
      apply replacePair_append_of_ne
      intro x hx
      exact (cleanCharB_spec (cleanStrB_mem ha hx)).2.1

theorem pass1_fieldA {f : String × JAtom} (h1 : cleanStrB f.1 = true)
    (h2 : cleanAtomB f.2 = true) (ys : List Char) :
    replacePair ',' '"' [',', ' ', '"'] (jsFieldA f ++ ys) =
      jsFieldA f ++ replacePair ',' '"' [',', ' ', '"'] ys := by
  simp only [jsFieldA, List.append_assoc, List.cons_append]
  rw [pass1_quote h1, replacePair_cons_of_ne (Or.inl (by decide)), pass1_atom h2]

theorem pass1_fieldsA {fs : List (String × JAtom)} (hfs : cleanFieldsAB fs = true)
    (ys : List Char) :
    replacePair ',' '"' [',', ' ', '"'] (jsFieldsA fs ++ ys) =
      m1FieldsA fs ++ replacePair ',' '"' [',', ' ', '"'] ys := by
  induction fs with
  | nil => simp [jsFieldsA, m1FieldsA]
  | cons f rest ih =>
      obtain ⟨h1, h2, hrest⟩ := cleanFieldsAB_cons hfs
      cases rest with
      | nil =>
          simp only [jsFieldsA, m1FieldsA]
          exact pass1_fieldA h1 h2 ys
      | cons g t =>
          simp only [jsFieldsA, m1FieldsA, List.append_assoc, List.cons_append]
          rw [pass1_fieldA h1 h2]
          obtain ⟨l, hl⟩ := jsFieldsA_cons_head g t
          have hhead : (jsFieldsA (g :: t) ++ ys).head? = some '"' := by
            rw [hl]; rfl
          rw [replacePair_cons_match (by decide) hhead]
          rw [ih hrest]

theorem pass1_val {v : JVal} (hv : cleanValB v = true) (ys : List Char) :
    replacePair ',' '"' [',', ' ', '"'] (jsValChars v ++ ys) =
      m1ValChars v ++ replacePair ',' '"' [',', ' ', '"'] ys := by
  cases v with
  | atom a =>
      simp only [jsValChars, m1ValChars]
      exact pass1_atom hv ys
  | jobj gs =>
      simp only [jsValChars, m1ValChars, List.append_assoc, List.cons_append,
        List.singleton_append, List.nil_append]
      rw [replacePair_cons_of_ne (Or.inl (by decide))]
      rw [pass1_fieldsA hv (cbrace :: ys)]
      rw [replacePair_cons_of_ne (Or.inl (by decide))]

theorem pass1_field {f : String × JVal} (h1 : cleanStrB f.1 = true)
    (h2 : cleanValB f.2 = true) (ys : List Char) :
    replacePair ',' '"' [',', ' ', '"'] (jsField f ++ ys) =
      m1Field f ++ replacePair ',' '"' [',', ' ', '"'] ys := by
  simp only [jsField, m1Field, List.append_assoc, List.cons_append]
  rw [pass1_quote h1, replacePair_cons_of_ne (Or.inl (by decide)), pass1_val h2]

theorem pass1_fields {fs : List (String × JVal)} (hfs : cleanFieldsB fs = true)
    (ys : List Char) :
    replacePair ',' '"' [',', ' ', '"'] (jsFields fs ++ ys) =
      m1Fields fs ++ replacePair ',' '"' [',', ' ', '"'] ys := by
  induction fs with
  | nil => simp [jsFields, m1Fields]
  | cons f rest ih =>
      obtain ⟨h1, h2, hrest⟩ := cleanFieldsB_cons hfs
      cases rest with
      | nil =>
          simp only [jsFields, m1Fields]
          exact pass1_field h1 h2 ys
      | cons g t =>
          simp only [jsFields, m1Fields, List.append_assoc, List.cons_append]
          rw [pass1_field h1 h2]
          obtain ⟨l, hl⟩ := jsFields_cons_head g t
          have hhead : (jsFields (g :: t) ++ ys).head? = some '"' := by
            rw [hl]; rfl
          rw [replacePair_cons_match (by decide) hhead]
          rw [ih hrest]

theorem pass1_top {fs : List (String × JVal)} (hfs : cleanFieldsB fs = true) :
    replacePair ',' '"' [',', ' ', '"'] (jsStringify fs) = m1Stringify fs := by
  unfold jsStringify m1Stringify
  rw [replacePair_cons_of_ne (Or.inl (by decide))]
  rw [pass1_fields hfs [cbrace], replacePair_single]

end Codec
namespace Codec

theorem head_clean_append {s : String} (hs : cleanStrB s = true) {y : Char}
    (hy : y ≠ ':') (ys : List Char) : (s.data ++ y :: ys).head? ≠ some ':' := by
  cases hd : s.data with
  | nil =>
      simp only [List.nil_append, List.head?_cons, ne_eq, Option.some.injEq]
      exact hy
  | cons a t =>
      have ha : cleanCharB a = true := cleanStrB_mem hs (by rw [hd]; simp)
      simp only [List.cons_append, List.head?_cons, ne_eq, Option.some.injEq]
      exact (cleanCharB_spec ha).2.2.1

theorem pass2_strData {s : String} (hs : cleanStrB s = true) (ys : List Char) :
    replacePair '"' ':' ['"', ':', ' '] (s.data ++ ys) =
      s.data ++ replacePair '"' ':' ['"', ':', ' '] ys := by
  apply replacePair_append_of_ne
  intro x hx
  exact (cleanCharB_spec (cleanStrB_mem hs hx)).1

theorem pass2_quote_notColon {s : String} (hs : cleanStrB s = true)
    {ys : List Char} (hy : ys.head? ≠ some ':') :
    replacePair '"' ':' ['"', ':', ' '] (quoteChars s ++ ys) =
      quoteChars s ++ replacePair '"' ':' ['"', ':', ' '] ys := by
  show replacePair '"' ':' ['"', ':', ' '] ('"' :: ((s.data ++ ['"']) ++ ys)) = _
  rw [List.append_assoc, List.singleton_append]
  rw [replacePair_cons_of_ne (Or.inr (head_clean_append hs (by decide) ys))]
  rw [pass2_strData hs]
  rw [replacePair_cons_of_ne (Or.inr hy)]
  simp [quoteChars]

theorem pass2_atom_notColon {a : JAtom} (ha : cleanAtomB a = true)
    {ys : List Char} (hy : ys.head? ≠ some ':') :
    replacePair '"' ':' ['"', ':', ' '] (atomChars a ++ ys) =
      atomChars a ++ replacePair '"' ':' ['"', ':', ' '] ys := by
  cases a with
  | jstr s => exact pass2_quote_notColon ha hy
  | jraw d => exact pass2_strData ha ys

theorem pass2_key {k : String} (hk : cleanStrB k = true) (ys : List Char) :
    replacePair '"' ':' ['"', ':', ' '] (quoteChars k ++ ':' :: ys) =
      quoteChars k ++ ':' :: ' ' :: replacePair '"' ':' ['"', ':', ' '] ys := by
  show replacePair '"' ':' ['"', ':', ' ']
      ('"' :: ((k.data ++ ['"']) ++ ':' :: ys)) = _
  rw [List.append_assoc, List.singleton_append]
  rw [replacePair_cons_of_ne (Or.inr (head_clean_append hk (by decide) (':' :: ys)))]
  rw [pass2_strData hk]
  rw [replacePair_match]
  simp [quoteChars]

theorem pass2_fieldA {f : String × JAtom} (h1 : cleanStrB f.1 = true)
    (h2 : cleanAtomB f.2 = true) {ys : List Char} (hy : ys.head? ≠ some ':') :
    replacePair '"' ':' ['"', ':', ' '] (jsFieldA f ++ ys) =
      pyFieldA f ++ replacePair '"' ':' ['"', ':', ' '] ys := by
  simp only [jsFieldA, pyFieldA, List.append_assoc, List.cons_append]
  rw [pass2_key h1, pass2_atom_notColon h2 hy]

theorem pass2_fieldsA {fs : List (String × JAtom)} (hfs : cleanFieldsAB fs = true)
    {ys : List Char} (hy : ys.head? ≠ some ':') :
    replacePair '"' ':' ['"', ':', ' '] (m1FieldsA fs ++ ys) =
      pyFieldsA fs ++ replacePair '"' ':' ['"', ':', ' '] ys := by
  induction fs with
  | nil => simp [m1FieldsA, pyFieldsA]
  | cons f rest ih =>
      obtain ⟨h1, h2, hrest⟩ := cleanFieldsAB_cons hfs
      cases rest with
      | nil =>
          simp only [m1FieldsA, pyFieldsA]
          exact pass2_fieldA h1 h2 hy
      | cons g t =>
          simp only [m1FieldsA, pyFieldsA, List.append_assoc, List.cons_append]
          rw [pass2_fieldA h1 h2 (by simp)]
          rw [replacePair_cons_of_ne (Or.inl (by decide))]
          rw [replacePair_cons_of_ne (Or.inl (by decide))]
          rw [ih hrest]

theorem pass2_val {v : JVal} (hv : cleanValB v = true) {ys : List Char}
    (hy : ys.head? ≠ some ':') :
    replacePair '"' ':' ['"', ':', ' '] (m1ValChars v ++ ys) =
      pyValChars v ++ replacePair '"' ':' ['"', ':', ' '] ys := by
  cases v with
  | atom a =>
      simp only [m1ValChars, pyValChars]
      exact pass2_atom_notColon hv hy
  | jobj gs =>
      simp only [m1ValChars, pyValChars, List.append_assoc, List.cons_append,
        List.singleton_append, List.nil_append]
      rw [replacePair_cons_of_ne (Or.inl (by decide))]
      rw [pass2_fieldsA hv (by simp <;> decide)]
      rw [replacePair_cons_of_ne (Or.inl (by decide))]

theorem pass2_field {f : String × JVal} (h1 : cleanStrB f.1 = true)
    (h2 : cleanValB f.2 = true) {ys : List Char} (hy : ys.head? ≠ some ':') :
    replacePair '"' ':' ['"', ':', ' '] (m1Field f ++ ys) =
      pyField f ++ replacePair '"' ':' ['"', ':', ' '] ys := by
  simp only [m1Field, pyField, List.append_assoc, List.cons_append]
  rw [pass2_key h1, pass2_val h2 hy]

theorem pass2_fields {fs : List (String × JVal)} (hfs : cleanFieldsB fs = true)
    {ys : List Char} (hy : ys.head? ≠ some ':') :
    replacePair '"' ':' ['"', ':', ' '] (m1Fields fs ++ ys) =
      pyFields fs ++ replacePair '"' ':' ['"', ':', ' '] ys := by
  induction fs with
  | nil => simp [m1Fields, pyFields]
  | cons f rest ih =>
      obtain ⟨h1, h2, hrest⟩ := cleanFieldsB_cons hfs
      cases rest with
      | nil =>
          simp only [m1Fields, pyFields]
          exact pass2_field h1 h2 hy
      | cons g t =>
          simp only [m1Fields, pyFields, List.append_assoc, List.cons_append]
          rw [pass2_field h1 h2 (by simp)]
          rw [replacePair_cons_of_ne (Or.inl (by decide))]
          rw [replacePair_cons_of_ne (Or.inl (by decide))]
          rw [ih hrest]

theorem pass2_top {fs : List (String × JVal)} (hfs : cleanFieldsB fs = true) :
    replacePair '"' ':' ['"', ':', ' '] (m1Stringify fs) = pyStringify fs := by
  unfold m1Stringify pyStringify
  rw [replacePair_cons_of_ne (Or.inl (by decide))]
  rw [pass2_fields hfs (by simp <;> decide), replacePair_single]

end Codec
namespace Codec

theorem passC_quote {s : String} (hs : cleanStrB s = true) (d : Char)
    (rep : List Char) (ys : List Char) :
    replacePair ',' d rep (quoteChars s ++ ys) =
      quoteChars s ++ replacePair ',' d rep ys := by
  apply replacePair_append_of_ne
  intro x hx
  simp only [quoteChars, List.mem_cons, List.mem_append, List.not_mem_nil,
    or_false] at hx
  rcases hx with rfl | hx | rfl
  · decide
  · exact (cleanCharB_spec (cleanStrB_mem hs hx)).2.1
  · decide

theorem passC_atom {a : JAtom} (ha : cleanAtomB a = true) (d : Char)
    (rep : List Char) (ys : List Char) :
    replacePair ',' d rep (atomChars a ++ ys) =
      atomChars a ++ replacePair ',' d rep ys := by
  cases a with
  | jstr s => exact passC_quote ha d rep ys
  | jraw dg =>
      apply replacePair_append_of_ne
      intro x hx
      exact (cleanCharB_spec (cleanStrB_mem ha hx)).2.1

theorem passC_fieldA {f : String × JAtom} (h1 : cleanStrB f.1 = true)
    (h2 : cleanAtomB f.2 = true) (d : Char) (rep : List Char) (ys : List Char) :
    replacePair ',' d rep (pyFieldA f ++ ys) =
      pyFieldA f ++ replacePair ',' d rep ys := by
  simp only [pyFieldA, List.append_assoc, List.cons_append]
  rw [passC_quote h1, replacePair_cons_of_ne (Or.inl (by decide)),
    replacePair_cons_of_ne (Or.inl (by decide)), passC_atom h2]

theorem passC_fieldsA {fs : List (String × JAtom)} (hfs : cleanFieldsAB fs = true)
    {d : Char} (hd : d ≠ ' ') (rep : List Char) (ys : List Char) :
    replacePair ',' d rep (pyFieldsA fs ++ ys) =
      pyFieldsA fs ++ replacePair ',' d rep ys := by
  induction fs with
  | nil => simp [pyFieldsA]
  | cons f rest ih =>
      obtain ⟨h1, h2, hrest⟩ := cleanFieldsAB_cons hfs
      cases rest with
      | nil =>
          simp only [pyFieldsA]
          exact passC_fieldA h1 h2 d rep ys
      | cons g t =>
          simp only [pyFieldsA, List.append_assoc, List.cons_append]
          rw [passC_fieldA h1 h2]
          rw [replacePair_cons_of_ne (Or.inr (by simp [Ne.symm hd]))]
          rw [replacePair_cons_of_ne (Or.inl (by decide))]
          rw [ih hrest]

theorem passC_val {v : JVal} (hv : cleanValB v = true) {d : Char}
    (hd : d ≠ ' ') (rep : List Char) (ys : List Char) :
    replacePair ',' d rep (pyValChars v ++ ys) =
      pyValChars v ++ replacePair ',' d rep ys := by
  cases v with
  | atom a =>
      simp only [pyValChars]
      exact passC_atom hv d rep ys
  | jobj gs =>
      simp only [pyValChars, List.append_assoc, List.cons_append,
        List.singleton_append, List.nil_append]
      rw [replacePair_cons_of_ne (Or.inl (by decide))]
      rw [passC_fieldsA hv hd rep (cbrace :: ys)]
      rw [replacePair_cons_of_ne (Or.inl (by decide))]

theorem passC_field {f : String × JVal} (h1 : cleanStrB f.1 = true)
    (h2 : cleanValB f.2 = true) {d : Char} (hd : d ≠ ' ') (rep : List Char)
    (ys : List Char) :
    replacePair ',' d rep (pyField f ++ ys) =
      pyField f ++ replacePair ',' d rep ys := by
  simp only [pyField, List.append_assoc, List.cons_append]
  rw [passC_quote h1, replacePair_cons_of_ne (Or.inl (by decide)),
    replacePair_cons_of_ne (Or.inl (by decide)), passC_val h2 hd]

theorem passC_fields {fs : List (String × JVal)} (hfs : cleanFieldsB fs = true)
    {d : Char} (hd : d ≠ ' ') (rep : List Char) (ys : List Char) :
    replacePair ',' d rep (pyFields fs ++ ys) =
      pyFields fs ++ replacePair ',' d rep ys := by
  induction fs with
  | nil => simp [pyFields]
  | cons f rest ih =>
      obtain ⟨h1, h2, hrest⟩ := cleanFieldsB_cons hfs
      cases rest with
      | nil =>
          simp only [pyFields]
          exact passC_field h1 h2 hd rep ys
      | cons g t =>
          simp only [pyFields, List.append_assoc, List.cons_append]
          rw [passC_field h1 h2 hd]
          rw [replacePair_cons_of_ne (Or.inr (by simp [Ne.symm hd]))]
          rw [replacePair_cons_of_ne (Or.inl (by decide))]
          rw [ih hrest]

theorem passC_top {fs : List (String × JVal)} (hfs : cleanFieldsB fs = true)
    {d : Char} (hd : d ≠ ' ') (rep : List Char) :
    replacePair ',' d rep (pyStringify fs) = pyStringify fs := by
  unfold pyStringify
  rw [replacePair_cons_of_ne (Or.inl (by decide))]
  rw [passC_fields hfs hd rep [cbrace], replacePair_single]

theorem pythonize_jsStringify {fs : List (String × JVal)}
    (hfs : cleanFieldsB fs = true) :
    pythonize (jsStringify fs) = pyStringify fs := by
  unfold pythonize
  rw [pass1_top hfs, pass2_top hfs, passC_top hfs (by decide) _,
    passC_top hfs (by decide) _]

/-- C6: for every outbound control message built by `sendEvent` — any
event id and any payload whose strings are free of JSON-escaped and
regex-colliding characters — the serialized text equals the Python-style
reference serialization of the object whose first key is `event_id`
followed by the payload fields in declared order: `event_id` first, no
reordering, and `", "` / `": "` spacing exactly as the order-sensitive
upstream expects. -/
theorem claim_C6_ordered_codec (eventId : String) (payload : List (String × JVal))
    (hid : cleanStrB eventId = true) (hp : cleanFieldsB payload = true) :
    sendEventChars eventId payload =
      pyStringify (("event_id", JVal.atom (JAtom.jstr eventId)) :: payload) := by
  unfold sendEventChars
  apply pythonize_jsStringify
  have hcons : cleanFieldsB (("event_id", JVal.atom (JAtom.jstr eventId)) :: payload) =
      ((cleanStrB "event_id" && cleanValB (JVal.atom (JAtom.jstr eventId))) &&
        cleanFieldsB payload) := rfl
  rw [hcons, Bool.and_eq_true, Bool.and_eq_true]
  exact ⟨⟨by decide, hid⟩, hp⟩

/-- The `session.update` payload sent after `session.created`, used as the
C6 witness input. -/
def c6payload : List (String × JVal) :=
  [("type", JVal.atom (JAtom.jstr "session.update")),
   ("session", JVal.jobj
     [("voice", JAtom.jstr "Cherry"),
      ("mode", JAtom.jstr "server_commit"),
      ("response_format", JAtom.jstr "pcm"),
      ("sample_rate", JAtom.jraw "24000")])]

/-- C6 (witness): the codec theorem at a concrete `session.update`
message. -/
theorem claim_C6_witness :
    (cleanStrB "event_4711_abc123" = true ∧ cleanFieldsB c6payload = true) ∧
    sendEventChars "event_4711_abc123" c6payload =
      pyStringify (("event_id", JVal.atom (JAtom.jstr "event_4711_abc123")) ::
        c6payload) :=
  ⟨⟨by decide, by decide⟩,
    claim_C6_ordered_codec "event_4711_abc123" c6payload (by decide) (by decide)⟩

end Codec
